import Mathlib

/-
Verification of the `goblib::stdmap` container (src/src/gob_stdmap.hpp).

Shallow embedding: the container state is the backing vector `_v`, modelled
as a `List (α × β)` of (key, value) entries; the key comparator
`_compare_key` is a Bool-valued relation `cmp : α → α → Bool`.  Iterators
are modelled as indices into the backing list; the `end()` iterator is the
index `l.length`, and `l[i]? = none` exactly when an iterator equals
`end()`.  `std::lower_bound` / `std::upper_bound` on the (sorted) vector
are modelled by the linear scans `lower_bound` / `upper_bound`, which
return the first index at which the search predicate fails — the defining
postcondition of the C++ binary searches on a partitioned range.
-/

namespace GobStdmap

variable {α β : Type}

/-- `ne_key` (gob_stdmap.hpp line 436): `_compare_key(a,b) || _compare_key(b,a)`. -/
def ne_key (cmp : α → α → Bool) (a b : α) : Bool := cmp a b || cmp b a

/-- `eq_key` (gob_stdmap.hpp line 437): `!ne_key(a, b)`. -/
def eq_key (cmp : α → α → Bool) (a b : α) : Bool := !(ne_key cmp a b)

/-- `lower_bound_impl` (lines 412-419): first index whose key is not
less than `k`, i.e. the first index where `cmp entry.first k` fails. -/
def lower_bound (cmp : α → α → Bool) : List (α × β) → α → Nat
  | [], _ => 0
  | e :: t, k => if cmp e.1 k then lower_bound cmp t k + 1 else 0

/-- `upper_bound_impl` (lines 420-427): first index whose key is strictly
greater than `k`, i.e. the first index where `cmp k entry.first` holds. -/
def upper_bound (cmp : α → α → Bool) : List (α × β) → α → Nat
  | [], _ => 0
  | e :: t, k => if cmp k e.1 then 0 else upper_bound cmp t k + 1

/-- `find` (lines 347-365): `lower_bound`, then return that position if the
key found there is comparator-equivalent to `k`, else the end iterator
(modelled as `none`). -/
def find (cmp : α → α → Bool) (l : List (α × β)) (k : α) : Option Nat :=
  match l[lower_bound cmp l k]? with
  | some e => if eq_key cmp e.1 k then some (lower_bound cmp l k) else none
  | none => none

/-- `count` (line 345): `(size_type)(find(key) != end())`. -/
def count (cmp : α → α → Bool) (l : List (α × β)) (k : α) : Nat :=
  if (find cmp l k).isSome then 1 else 0

/-- `equal_range` (lines 375-383): the pair `(lower_bound, upper_bound)`. -/
def equal_range (cmp : α → α → Bool) (l : List (α × β)) (k : α) : Nat × Nat :=
  (lower_bound cmp l k, upper_bound cmp l k)

/-- `insert(const value_type&)` (lines 195-204): `lower_bound`, then insert
before it when at end or the key there differs; returns the new state, the
returned iterator, and the `inserted` flag. -/
def insert (cmp : α → α → Bool) (l : List (α × β)) (x : α × β) :
    List (α × β) × Nat × Bool :=
  match l[lower_bound cmp l x.1]? with
  | none => (l.insertIdx (lower_bound cmp l x.1) x, lower_bound cmp l x.1, true)
  | some e =>
    if ne_key cmp e.1 x.1 then
      (l.insertIdx (lower_bound cmp l x.1) x, lower_bound cmp l x.1, true)
    else (l, lower_bound cmp l x.1, false)

/-- `std::lower_bound` with the entry-level comparator `_compare_value`
(used by `emplace`, lines 293-297): compares stored entries against the
candidate entry by their keys only. -/
def lower_bound_value (cmp : α → α → Bool) : List (α × β) → α × β → Nat
  | [], _ => 0
  | e :: t, v => if cmp e.1 v.1 then lower_bound_value cmp t v + 1 else 0

/-- `emplace` (lines 277-304): construct the candidate entry `v`, locate
via the entry-level `lower_bound`, insert if absent. -/
def emplace (cmp : α → α → Bool) (l : List (α × β)) (v : α × β) :
    List (α × β) × Nat × Bool :=
  match l[lower_bound_value cmp l v]? with
  | none => (l.insertIdx (lower_bound_value cmp l v) v, lower_bound_value cmp l v, true)
  | some e =>
    if ne_key cmp e.1 v.1 then
      (l.insertIdx (lower_bound_value cmp l v) v, lower_bound_value cmp l v, true)
    else (l, lower_bound_value cmp l v, false)

/-- The hinted insertion position (lines 216 and 315): the hint itself when
it is the end iterator — with no validation — otherwise `lower_bound`. -/
def hint_pos (cmp : α → α → Bool) (l : List (α × β)) (hint : Nat) (k : α) : Nat :=
  if hint = l.length then hint else lower_bound cmp l k

/-- `insert(const_iterator position, const value_type&)` (lines 214-222):
when the hint is the end iterator the insertion position is taken to be the
hint itself with no validation; otherwise `lower_bound` is used.  On a
duplicate key the returned iterator is the `lower_bound` position. -/
def insert_hint (cmp : α → α → Bool) (l : List (α × β)) (pos : Nat)
    (x : α × β) : List (α × β) × Nat :=
  match l[hint_pos cmp l pos x.1]? with
  | none => (l.insertIdx (hint_pos cmp l pos x.1) x, hint_pos cmp l pos x.1)
  | some e =>
    if ne_key cmp e.1 x.1 then
      (l.insertIdx (hint_pos cmp l pos x.1) x, hint_pos cmp l pos x.1)
    else (l, hint_pos cmp l pos x.1)

/-- `emplace_hint` (lines 311-321): same hinted position logic as hinted
`insert`, but on a duplicate key it returns the iterator at the hint's
offset (`_v.begin() + (hint - _v.cbegin())`), not the found position. -/
def emplace_hint (cmp : α → α → Bool) (l : List (α × β)) (hint : Nat)
    (v : α × β) : List (α × β) × Nat :=
  match l[hint_pos cmp l hint v.1]? with
  | none => (l.insertIdx (hint_pos cmp l hint v.1) v, hint_pos cmp l hint v.1)
  | some e =>
    if ne_key cmp e.1 v.1 then
      (l.insertIdx (hint_pos cmp l hint v.1) v, hint_pos cmp l hint v.1)
    else (l, hint)

/-- `erase(const key_type&)` (lines 323-328): `find`, then erase the single
matching slot (`_v.erase(it, it + 1)`) returning 1, or return 0 when `find`
yields the end iterator.  (`find = some i` already guarantees the source's
`eq_key(it->first, key)` re-check by its definition.) -/
def erase (cmp : α → α → Bool) (l : List (α × β)) (k : α) :
    List (α × β) × Nat :=
  match find cmp l k with
  | some i => (l.eraseIdx i, 1)
  | none => (l, 0)

/-- `operator[]` (lines 153-158): `lower_bound`; when at end or the key
there differs, insert `(key, T())` at that position; return the slot. -/
def opBracket (cmp : α → α → Bool) [Inhabited β] (l : List (α × β))
    (k : α) : List (α × β) × Nat :=
  match l[lower_bound cmp l k]? with
  | none => (l.insertIdx (lower_bound cmp l k) (k, default), lower_bound cmp l k)
  | some e =>
    if ne_key cmp e.1 k then
      (l.insertIdx (lower_bound cmp l k) (k, default), lower_bound cmp l k)
    else (l, lower_bound cmp l k)

/-- `at_impl` (lines 398-410): `find`, return the mapped value when found;
on a missing key it throws `std::out_of_range` (or aborts without
exception support), modelled as `none`.  It never mutates the state. -/
def at_impl (cmp : α → α → Bool) (l : List (α × β)) (k : α) : Option β :=
  match find cmp l k with
  | some i => (l[i]?).map Prod.snd
  | none => none

/-- Range constructor `stdmap(first, last, comp, alloc)` (line 111): the
member initializer `_v(first, last, alloc)` copies the input range into the
backing vector verbatim — no sorting, no duplicate elimination. -/
def ctorRange (l : List (α × β)) : List (α × β) := l

/-- `operator=(std::initializer_list)` (lines 136-140): `_v = il` replaces
the backing vector by the initializer list verbatim. -/
def assignInitList (_old il : List (α × β)) : List (α × β) := il

/-- Sortedness invariant (spec §3): every adjacent pair of entries is
strictly ascending under the comparator. -/
def sortedInv (cmp : α → α → Bool) (l : List (α × β)) : Prop :=
  List.Chain' (fun a b => cmp a.1 b.1 = true) l

/-- Executable version of the sortedness invariant. -/
def sortedInvB (cmp : α → α → Bool) : List (α × β) → Bool
  | [] => true
  | [_] => true
  | a :: b :: t => cmp a.1 b.1 && sortedInvB cmp (b :: t)

theorem sortedInv_iff {cmp : α → α → Bool} {l : List (α × β)} :
    sortedInv cmp l ↔ sortedInvB cmp l = true := by
  induction l with
  | nil => simp [sortedInv, sortedInvB]
  | cons a t ih =>
    cases t with
    | nil => simp [sortedInv, sortedInvB]
    | cons b t' =>
      rw [sortedInv, List.chain'_cons]
      rw [sortedInv] at ih
      simp [sortedInvB, Bool.and_eq_true, ih]

instance (cmp : α → α → Bool) (l : List (α × β)) :
    Decidable (sortedInv cmp l) :=
  decidable_of_iff (sortedInvB cmp l = true) sortedInv_iff.symm

/-- `std::less<Nat>` as a Bool-valued comparator. -/
def natLt (a b : Nat) : Bool := decide (a < b)

/-- Mutation of the mapped value through the reference returned by
`operator[]`: overwrite the value stored in slot `i`, keeping the key. -/
def setVal (l : List (α × β)) (i : Nat) (v : β) : List (α × β) :=
  match l[i]? with
  | some e => l.set i (e.1, v)
  | none => l

/-! ### Basic properties of the binary-search locators -/

theorem lower_bound_le_length (cmp : α → α → Bool) (l : List (α × β)) (k : α) :
    lower_bound cmp l k ≤ l.length := by
  induction l with
  | nil => simp [lower_bound]
  | cons e t ih =>
    simp only [lower_bound, List.length_cons]
    split
    · omega
    · omega

theorem lower_bound_lt_true {cmp : α → α → Bool} {l : List (α × β)} {k : α}
    {j : Nat} {e : α × β} (hj : j < lower_bound cmp l k) (he : l[j]? = some e) :
    cmp e.1 k = true := by
  induction l generalizing j with
  | nil => simp [lower_bound] at hj
  | cons a t ih =>
    simp only [lower_bound] at hj
    split at hj
    · cases j with
      | zero =>
        simp only [List.getElem?_cons_zero, Option.some.injEq] at he
        subst he; assumption
      | succ m =>
        simp only [List.getElem?_cons_succ] at he
        exact ih (by omega) he
    · omega

theorem lower_bound_get_false {cmp : α → α → Bool} {l : List (α × β)} {k : α}
    {e : α × β} (he : l[lower_bound cmp l k]? = some e) : cmp e.1 k = false := by
  induction l with
  | nil => simp at he
  | cons a t ih =>
    by_cases h : cmp a.1 k = true
    · have hlb : lower_bound cmp (a :: t) k = lower_bound cmp t k + 1 := by
        simp [lower_bound, h]
      rw [hlb, List.getElem?_cons_succ] at he
      exact ih he
    · have hlb : lower_bound cmp (a :: t) k = 0 := by
        simp [lower_bound, h]
      rw [hlb, List.getElem?_cons_zero] at he
      injection he with h2
      subst h2
      exact Bool.eq_false_iff.mpr h

theorem upper_bound_le_length (cmp : α → α → Bool) (l : List (α × β)) (k : α) :
    upper_bound cmp l k ≤ l.length := by
  induction l with
  | nil => simp [upper_bound]
  | cons e t ih =>
    simp only [upper_bound, List.length_cons]
    split
    · omega
    · omega

theorem upper_bound_lt_false {cmp : α → α → Bool} {l : List (α × β)} {k : α}
    {j : Nat} {e : α × β} (hj : j < upper_bound cmp l k) (he : l[j]? = some e) :
    cmp k e.1 = false := by
  induction l generalizing j with
  | nil => simp [upper_bound] at hj
  | cons a t ih =>
    simp only [upper_bound] at hj
    split at hj
    · omega
    · cases j with
      | zero =>
        simp only [List.getElem?_cons_zero, Option.some.injEq] at he
        subst he
        rename_i h
        exact Bool.eq_false_iff.mpr h
      | succ m =>
        simp only [List.getElem?_cons_succ] at he
        exact ih (by omega) he

theorem upper_bound_get_true {cmp : α → α → Bool} {l : List (α × β)} {k : α}
    {e : α × β} (he : l[upper_bound cmp l k]? = some e) : cmp k e.1 = true := by
  induction l with
  | nil => simp at he
  | cons a t ih =>
    by_cases h : cmp k a.1 = true
    · have hub : upper_bound cmp (a :: t) k = 0 := by
        simp [upper_bound, h]
      rw [hub, List.getElem?_cons_zero] at he
      injection he with h2
      subst h2
      exact h
    · have hub : upper_bound cmp (a :: t) k = upper_bound cmp t k + 1 := by
        simp [upper_bound, h]
      rw [hub, List.getElem?_cons_succ] at he
      exact ih he

theorem lower_bound_value_eq (cmp : α → α → Bool) (l : List (α × β)) (v : α × β) :
    lower_bound_value cmp l v = lower_bound cmp l v.1 := by
  induction l with
  | nil => rfl
  | cons e t ih => simp only [lower_bound_value, lower_bound, ih]

/-! ### The sortedness invariant and its consequences -/

theorem sortedInv_pairwise {cmp : α → α → Bool} {l : List (α × β)}
    (htr : ∀ a b c : α, cmp a b = true → cmp b c = true → cmp a c = true)
    (hs : sortedInv cmp l) :
    l.Pairwise (fun a b : α × β => cmp a.1 b.1 = true) := by
  haveI : IsTrans (α × β) (fun a b : α × β => cmp a.1 b.1 = true) :=
    ⟨fun a b c hab hbc => htr a.1 b.1 c.1 hab hbc⟩
  exact List.chain'_iff_pairwise.mp hs

theorem sorted_rel {cmp : α → α → Bool} {l : List (α × β)}
    (htr : ∀ a b c : α, cmp a b = true → cmp b c = true → cmp a c = true)
    (hs : sortedInv cmp l) {i j : Nat} {e f : α × β}
    (hij : i < j) (he : l[i]? = some e) (hf : l[j]? = some f) :
    cmp e.1 f.1 = true := by
  have hp := sortedInv_pairwise htr hs
  rw [List.pairwise_iff_getElem] at hp
  rw [List.getElem?_eq_some] at he hf
  obtain ⟨hi, he⟩ := he
  obtain ⟨hj, hf⟩ := hf
  have := hp i j hi hj hij
  rwa [he, hf] at this

/-- Inserting `(k, v)` at the `lower_bound` position preserves the sortedness
invariant, provided the insertion actually fires (the source's condition:
the locator is at the end, or the key found there is not equivalent). -/
theorem insert_sorted {cmp : α → α → Bool} {l : List (α × β)} {k : α} (v : β)
    (hs : sortedInv cmp l)
    (hcond : l[lower_bound cmp l k]? = none ∨
      ∃ e, l[lower_bound cmp l k]? = some e ∧ ne_key cmp e.1 k = true) :
    sortedInv cmp (l.insertIdx (lower_bound cmp l k) (k, v)) := by
  induction l with
  | nil =>
    simp only [lower_bound, List.insertIdx_zero]
    exact List.chain'_singleton _
  | cons a t ih =>
    by_cases hak : cmp a.1 k = true
    · have hlb : lower_bound cmp (a :: t) k = lower_bound cmp t k + 1 := by
        simp [lower_bound, hak]
      rw [hlb] at hcond ⊢
      rw [List.insertIdx_succ_cons]
      rw [List.getElem?_cons_succ] at hcond
      rw [sortedInv, List.chain'_cons'] at hs
      obtain ⟨hhead, hst⟩ := hs
      rw [sortedInv, List.chain'_cons']
      refine ⟨?_, ih hst hcond⟩
      intro b hb
      cases t with
      | nil =>
        simp only [lower_bound, List.insertIdx_zero, List.head?_cons,
          Option.mem_def, Option.some.injEq] at hb
        subst hb; exact hak
      | cons f t' =>
        by_cases hfk : cmp f.1 k = true
        · have : lower_bound cmp (f :: t') k = lower_bound cmp t' k + 1 := by
            simp [lower_bound, hfk]
          rw [this, List.insertIdx_succ_cons] at hb
          simp only [List.head?_cons, Option.mem_def, Option.some.injEq] at hb
          subst hb
          exact hhead f (by simp)
        · have : lower_bound cmp (f :: t') k = 0 := by
            simp [lower_bound, hfk]
          rw [this, List.insertIdx_zero] at hb
          simp only [List.head?_cons, Option.mem_def, Option.some.injEq] at hb
          subst hb; exact hak
    · have hlb : lower_bound cmp (a :: t) k = 0 := by
        simp [lower_bound, hak]
      rw [hlb] at hcond ⊢
      rw [List.insertIdx_zero]
      rcases hcond with hnone | ⟨e, he, hne⟩
      · simp at hnone
      · simp only [List.getElem?_cons_zero, Option.some.injEq] at he
        rw [← he] at hne
        simp only [ne_key, Bool.or_eq_true] at hne
        have hka : cmp k a.1 = true := by
          rcases hne with h | h
          · exact absurd h hak
          · exact h
        exact List.chain'_cons.mpr ⟨hka, hs⟩

/-- Erasing any slot preserves the sortedness invariant (the two neighbours
of the removed slot are related by transitivity). -/
theorem eraseIdx_sorted {cmp : α → α → Bool} {l : List (α × β)}
    (htr : ∀ a b c : α, cmp a b = true → cmp b c = true → cmp a c = true)
    (hs : sortedInv cmp l) (i : Nat) :
    sortedInv cmp (l.eraseIdx i) := by
  have hp := sortedInv_pairwise htr hs
  have hsub : List.Sublist (l.eraseIdx i) l := List.eraseIdx_sublist l i
  have : (l.eraseIdx i).Pairwise (fun a b : α × β => cmp a.1 b.1 = true) := by
    rw [List.pairwise_iff_forall_sublist] at hp ⊢
    intro a b hab
    exact hp (hab.trans hsub)
  exact this.chain'

/-! ### Properties of `find` and comparator equivalence -/

theorem eq_key_iff {cmp : α → α → Bool} {a b : α} :
    eq_key cmp a b = true ↔ cmp a b = false ∧ cmp b a = false := by
  simp [eq_key, ne_key]

theorem ne_key_iff {cmp : α → α → Bool} {a b : α} :
    ne_key cmp a b = true ↔ cmp a b = true ∨ cmp b a = true := by
  simp [ne_key]

theorem eq_key_of_ne_key_false {cmp : α → α → Bool} {a b : α}
    (h : ne_key cmp a b = false) : eq_key cmp a b = true := by
  simp [eq_key, h]

theorem find_some_elim {cmp : α → α → Bool} {l : List (α × β)} {k : α} {i : Nat}
    (h : find cmp l k = some i) :
    i = lower_bound cmp l k ∧ ∃ e, l[i]? = some e ∧ eq_key cmp e.1 k = true := by
  unfold find at h
  split at h
  · rename_i e he
    split at h
    · rename_i heq
      injection h with h
      subst h
      exact ⟨rfl, e, he, heq⟩
    · cases h
  · cases h

theorem find_some_intro {cmp : α → α → Bool} {l : List (α × β)} {k : α}
    {e : α × β} (he : l[lower_bound cmp l k]? = some e)
    (heq : eq_key cmp e.1 k = true) :
    find cmp l k = some (lower_bound cmp l k) := by
  unfold find
  rw [he]
  simp [heq]

theorem find_none_of_all_ne {cmp : α → α → Bool} {l : List (α × β)} {k : α}
    (h : ∀ e ∈ l, ne_key cmp e.1 k = true) : find cmp l k = none := by
  unfold find
  split
  · rename_i e he
    have hm : e ∈ l := by
      rw [List.getElem?_eq_some] at he
      obtain ⟨hlt, he⟩ := he
      exact he ▸ l.getElem_mem hlt
    have := h e hm
    simp [eq_key, this]
  · rfl

/-- A comparator-equivalent entry anywhere in a sorted list is found by
`find` (at the `lower_bound` position, which is at or before the entry). -/
theorem find_some_of_mem {cmp : α → α → Bool} {l : List (α × β)} {k : α}
    (htr : ∀ a b c : α, cmp a b = true → cmp b c = true → cmp a c = true)
    (hs : sortedInv cmp l) {j : Nat} {e : α × β}
    (hj : l[j]? = some e) (heq : eq_key cmp e.1 k = true) :
    find cmp l k = some (lower_bound cmp l k) ∧ lower_bound cmp l k ≤ j := by
  obtain ⟨hek, hke⟩ := eq_key_iff.mp heq
  have hlbj : lower_bound cmp l k ≤ j := by
    by_contra hlt
    have := lower_bound_lt_true (Nat.lt_of_not_le hlt) hj
    rw [this] at hek
    cases hek
  have hjlen : j < l.length := (List.getElem?_eq_some.mp hj).1
  have hlblen : lower_bound cmp l k < l.length := Nat.lt_of_le_of_lt hlbj hjlen
  obtain ⟨f, hf⟩ : ∃ f, l[lower_bound cmp l k]? = some f :=
    ⟨_, List.getElem?_eq_getElem hlblen⟩
  have hfk : cmp f.1 k = false := lower_bound_get_false hf
  have hkf : cmp k f.1 = false := by
    rcases Nat.lt_or_ge (lower_bound cmp l k) j with hlt | hge
    · have hfe : cmp f.1 e.1 = true := sorted_rel htr hs hlt hf hj
      by_contra hkf
      have hkf : cmp k f.1 = true := by
        cases h : cmp k f.1
        · exact absurd h hkf
        · rfl
      have : cmp k e.1 = true := htr k f.1 e.1 hkf hfe
      rw [this] at hke
      cases hke
    · have : lower_bound cmp l k = j := Nat.le_antisymm hlbj hge
      rw [this, hj] at hf
      injection hf with hf
      rw [hf] at hke
      exact hke
  exact ⟨find_some_intro hf (eq_key_iff.mpr ⟨hfk, hkf⟩), hlbj⟩

/-- In a sorted list there is at most one slot holding a key equivalent
to `k` (uniqueness of the matching entry). -/
theorem eq_key_unique {cmp : α → α → Bool} {l : List (α × β)} {k : α}
    (htr : ∀ a b c : α, cmp a b = true → cmp b c = true → cmp a c = true)
    (hneg : ∀ a b c : α, cmp a b = false → cmp b c = false → cmp a c = false)
    (hs : sortedInv cmp l) {i j : Nat} {e f : α × β}
    (hi : l[i]? = some e) (hj : l[j]? = some f)
    (hei : eq_key cmp e.1 k = true) (hej : eq_key cmp f.1 k = true) : i = j := by
  obtain ⟨he1, he2⟩ := eq_key_iff.mp hei
  obtain ⟨hf1, hf2⟩ := eq_key_iff.mp hej
  rcases Nat.lt_trichotomy i j with hlt | heq | hgt
  · have hcmp := sorted_rel htr hs hlt hi hj
    have : cmp e.1 f.1 = false := hneg e.1 k f.1 he1 hf2
    rw [hcmp] at this
    cases this
  · exact heq
  · have hcmp := sorted_rel htr hs hgt hj hi
    have : cmp f.1 e.1 = false := hneg f.1 k e.1 hf1 he2
    rw [hcmp] at this
    cases this

/-! ### Sortedness preservation by each mutating operation -/

theorem insert_fst_sorted {cmp : α → α → Bool} {l : List (α × β)}
    (hs : sortedInv cmp l) (x : α × β) :
    sortedInv cmp (insert cmp l x).1 := by
  unfold insert
  split
  · rename_i he
    exact insert_sorted x.2 hs (Or.inl he)
  · rename_i e he
    split
    · rename_i hne
      exact insert_sorted x.2 hs (Or.inr ⟨e, he, hne⟩)
    · exact hs

theorem emplace_eq_insert (cmp : α → α → Bool) (l : List (α × β)) (v : α × β) :
    emplace cmp l v = insert cmp l v := by
  unfold emplace insert
  rw [lower_bound_value_eq]

theorem emplace_fst_sorted {cmp : α → α → Bool} {l : List (α × β)}
    (hs : sortedInv cmp l) (v : α × β) :
    sortedInv cmp (emplace cmp l v).1 := by
  rw [emplace_eq_insert]
  exact insert_fst_sorted hs v

theorem erase_fst_sorted {cmp : α → α → Bool} {l : List (α × β)}
    (htr : ∀ a b c : α, cmp a b = true → cmp b c = true → cmp a c = true)
    (hs : sortedInv cmp l) (k : α) :
    sortedInv cmp (erase cmp l k).1 := by
  unfold erase
  split
  · exact eraseIdx_sorted htr hs _
  · exact hs

theorem opBracket_fst_sorted {cmp : α → α → Bool} [Inhabited β]
    {l : List (α × β)} (hs : sortedInv cmp l) (k : α) :
    sortedInv cmp (opBracket cmp l k).1 := by
  unfold opBracket
  split
  · rename_i he
    exact insert_sorted default hs (Or.inl he)
  · rename_i e he
    split
    · rename_i hne
      exact insert_sorted default hs (Or.inr ⟨e, he, hne⟩)
    · exact hs

theorem ne_key_false_of_eq_key {cmp : α → α → Bool} {a b : α}
    (h : eq_key cmp a b = true) : ne_key cmp a b = false := by
  simp only [eq_key, Bool.not_eq_true'] at h
  exact h

theorem ne_key_true_of_eq_key_false {cmp : α → α → Bool} {a b : α}
    (h : eq_key cmp a b = false) : ne_key cmp a b = true := by
  simp only [eq_key, Bool.not_eq_false'] at h
  exact h

theorem find_none_elim {cmp : α → α → Bool} {l : List (α × β)} {k : α}
    (h : find cmp l k = none) :
    l[lower_bound cmp l k]? = none ∨
      ∃ e, l[lower_bound cmp l k]? = some e ∧ ne_key cmp e.1 k = true := by
  unfold find at h
  split at h
  · rename_i e he
    split at h
    · cases h
    · rename_i heq
      right
      refine ⟨e, he, ne_key_true_of_eq_key_false ?_⟩
      cases hek : eq_key cmp e.1 k
      · rfl
      · exact absurd hek heq
  · rename_i he
    exact Or.inl he

theorem insert_found {cmp : α → α → Bool} {l : List (α × β)} {x : α × β}
    {e : α × β} (he : l[lower_bound cmp l x.1]? = some e)
    (hne : ne_key cmp e.1 x.1 = false) :
    insert cmp l x = (l, lower_bound cmp l x.1, false) := by
  unfold insert
  rw [he]
  simp [hne]

theorem insert_notfound {cmp : α → α → Bool} {l : List (α × β)} {x : α × β}
    (hcond : l[lower_bound cmp l x.1]? = none ∨
      ∃ e, l[lower_bound cmp l x.1]? = some e ∧ ne_key cmp e.1 x.1 = true) :
    insert cmp l x =
      (l.insertIdx (lower_bound cmp l x.1) x, lower_bound cmp l x.1, true) := by
  unfold insert
  rcases hcond with hnone | ⟨e, he, hne⟩
  · rw [hnone]
  · rw [he]
    simp [hne]

/-- `List.insertIdx` opens exactly one slot: the result is the untouched
prefix, the new entry, then the untouched suffix. -/
theorem insertIdx_eq_take_cons_drop {γ : Type} {l : List γ} {i : Nat}
    (h : i ≤ l.length) (x : γ) :
    l.insertIdx i x = l.take i ++ x :: l.drop i := by
  induction l generalizing i with
  | nil =>
    have : i = 0 := by simpa using h
    subst this
    simp
  | cons a t ih =>
    cases i with
    | zero => simp
    | succ m =>
      simp only [List.insertIdx_succ_cons, List.take_succ_cons,
        List.drop_succ_cons, List.cons_append, List.cons.injEq, true_and]
      exact ih (by simpa using h)

/-! ### The claims -/

/-- **C1** (evidence of a code bug): the iterator-range constructor is the
member initializer `_v(first, last, alloc)` and the initializer-list
assignment is `_v = il`; both copy the input verbatim, so an unsorted input
yields a container violating the sortedness invariant, a duplicated key is
retained twice, and `find` then misses a key that is present. -/
theorem C1_ctor_unsorted :
    ctorRange (α := Nat) (β := Nat) [(2, 20), (1, 10)] = [(2, 20), (1, 10)] ∧
    ¬ sortedInv natLt (ctorRange (α := Nat) (β := Nat) [(2, 20), (1, 10)]) ∧
    ¬ sortedInv natLt (assignInitList (α := Nat) (β := Nat) [] [(2, 20), (1, 10)]) ∧
    (ctorRange (α := Nat) (β := Nat) [(1, 10), (1, 20)]).length = 2 ∧
    find natLt (ctorRange (α := Nat) (β := Nat) [(2, 20), (1, 10)]) 1 = none := by
  refine ⟨rfl, by decide, by decide, rfl, by decide⟩

/-- **C2** (evidence of a code bug): hinted `insert` with the end iterator
as hint appends without any validation, so it can store an out-of-order
entry or a duplicate key — the resulting contents differ from the un-hinted
`insert` of the same entry, and the sortedness invariant is destroyed.
`emplace_hint` shares the same unvalidated fast path. -/
theorem C2_end_hint_unvalidated :
    sortedInv natLt [((1 : Nat), (10 : Nat)), (3, 30)] ∧
    (insert_hint natLt [((1 : Nat), (10 : Nat)), (3, 30)] 2 (2, 20)).1
      = [(1, 10), (3, 30), (2, 20)] ∧
    ¬ sortedInv natLt (insert_hint natLt [((1 : Nat), (10 : Nat)), (3, 30)] 2 (2, 20)).1 ∧
    (insert natLt [((1 : Nat), (10 : Nat)), (3, 30)] (2, 20)).1
      = [(1, 10), (2, 20), (3, 30)] ∧
    sortedInv natLt [((1 : Nat), (10 : Nat))] ∧
    (insert_hint natLt [((1 : Nat), (10 : Nat))] 1 (1, 99)).1 = [(1, 10), (1, 99)] ∧
    (insert natLt [((1 : Nat), (10 : Nat))] (1, 99)).1 = [(1, 10)] ∧
    (emplace_hint natLt [((1 : Nat), (10 : Nat))] 1 (1, 99)).1 = [(1, 10), (1, 99)] := by
  decide

/-- **C3**: on a sorted map, `insert` and `emplace` of an entry whose key is
already present leave the container unmodified (the first stored value
survives, the supplied value is discarded) and return the position of the
existing entry together with the flag `false`. -/
theorem C3_duplicate_insert {cmp : α → α → Bool} {l : List (α × β)}
    (x : α × β) (i : Nat) (_hs : sortedInv cmp l)
    (hfind : find cmp l x.1 = some i) :
    insert cmp l x = (l, i, false) ∧ emplace cmp l x = (l, i, false) := by
  obtain ⟨hi, e, he, heq⟩ := find_some_elim hfind
  subst hi
  have h1 := insert_found (x := x) he (ne_key_false_of_eq_key heq)
  exact ⟨h1, by rw [emplace_eq_insert]; exact h1⟩

/-- Witness for C3: scenario of spec §8 — a second `emplace`/`insert` of key
3 with a different value returns the existing position and `false`. -/
theorem C3_witness :
    sortedInv natLt [((1 : Nat), (10 : Nat)), (3, 30)] ∧
    insert natLt [((1 : Nat), (10 : Nat)), (3, 30)] (3, 99)
      = ([(1, 10), (3, 30)], 1, false) ∧
    emplace natLt [((1 : Nat), (10 : Nat)), (3, 30)] (3, 99)
      = ([(1, 10), (3, 30)], 1, false) := by
  refine ⟨by decide, ?_, ?_⟩
  · exact (C3_duplicate_insert (3, 99) 1 (by decide) (by decide)).1
  · exact (C3_duplicate_insert (3, 99) 1 (by decide) (by decide)).2

/-- **C9**: on a sorted map, `emplace_hint` with an invalid hint — any
position other than the end iterator while the constructed entry's key is
already present — inserts nothing and returns the iterator at the hint's
own relative offset, not the position of the existing entry. -/
theorem C9_emplace_hint_fallback {cmp : α → α → Bool} {l : List (α × β)}
    (x : α × β) (hint i : Nat) (_hs : sortedInv cmp l)
    (hhint : hint < l.length) (hfind : find cmp l x.1 = some i) :
    emplace_hint cmp l hint x = (l, hint) := by
  obtain ⟨hi, e, he, heq⟩ := find_some_elim hfind
  subst hi
  have hp : hint_pos cmp l hint x.1 = lower_bound cmp l x.1 := by
    unfold hint_pos
    simp [Nat.ne_of_lt hhint]
  unfold emplace_hint
  rw [hp, he]
  simp [ne_key_false_of_eq_key heq]

/-- Witness for C9: on `[(1,10),(3,30),(5,50)]`, emplacing key 3 with the
(invalid) hint 0 returns position 0 — the hint's offset, not the entry's
true position 1 — and inserts nothing. -/
theorem C9_witness :
    sortedInv natLt [((1 : Nat), (10 : Nat)), (3, 30), (5, 50)] ∧
    emplace_hint natLt [((1 : Nat), (10 : Nat)), (3, 30), (5, 50)] 0 (3, 99)
      = ([(1, 10), (3, 30), (5, 50)], 0) ∧
    find natLt [((1 : Nat), (10 : Nat)), (3, 30), (5, 50)] 3 = some 1 := by
  refine ⟨by decide, ?_, by decide⟩
  exact C9_emplace_hint_fallback (3, 99) 0 1 (by decide) (by decide) (by decide)

theorem opBracket_found {cmp : α → α → Bool} [Inhabited β] {l : List (α × β)}
    {k : α} {e : α × β} (he : l[lower_bound cmp l k]? = some e)
    (hne : ne_key cmp e.1 k = false) :
    opBracket cmp l k = (l, lower_bound cmp l k) := by
  unfold opBracket
  rw [he]
  simp [hne]

theorem opBracket_notfound {cmp : α → α → Bool} [Inhabited β]
    {l : List (α × β)} {k : α}
    (hcond : l[lower_bound cmp l k]? = none ∨
      ∃ e, l[lower_bound cmp l k]? = some e ∧ ne_key cmp e.1 k = true) :
    opBracket cmp l k =
      (l.insertIdx (lower_bound cmp l k) (k, default), lower_bound cmp l k) := by
  unfold opBracket
  rcases hcond with hnone | ⟨e, he, hne⟩
  · rw [hnone]
  · rw [he]
    simp [hne]

/-- **C10**: frame conditions.  Un-hinted `insert` (and `operator[]`) of an
absent key leaves every previously stored entry unchanged and in the same
relative order, only opening the one slot at the `lower_bound` position;
`erase` of a present key leaves all other entries unchanged and in order,
only closing the slot of the (comparator-equivalent) matching entry. -/
theorem C10_frame (cmp : α → α → Bool) [Inhabited β] (l : List (α × β))
    (k : α) (_hs : sortedInv cmp l) :
    (∀ v : β, find cmp l k = none →
      (insert cmp l (k, v)).1
        = l.take (lower_bound cmp l k) ++ (k, v) :: l.drop (lower_bound cmp l k) ∧
      (opBracket cmp l k).1
        = l.take (lower_bound cmp l k)
            ++ (k, default) :: l.drop (lower_bound cmp l k)) ∧
    (∀ i, find cmp l k = some i →
      (erase cmp l k).1 = l.take i ++ l.drop (i + 1) ∧
      ∃ e, l[i]? = some e ∧ eq_key cmp e.1 k = true) := by
  constructor
  · intro v hnone
    have hcond := find_none_elim hnone
    have hle := lower_bound_le_length cmp l k
    constructor
    · rw [insert_notfound (x := (k, v)) hcond]
      exact insertIdx_eq_take_cons_drop hle (k, v)
    · rw [opBracket_notfound hcond]
      exact insertIdx_eq_take_cons_drop hle (k, default)
  · intro i hsome
    obtain ⟨hi, e, he, heq⟩ := find_some_elim hsome
    constructor
    · unfold erase
      rw [hsome]
      exact List.eraseIdx_eq_take_drop_succ l i
    · exact ⟨e, he, heq⟩

/-- Witness for C10: on the sorted map `[(1,10),(5,50)]`, inserting absent
key 3 (by `insert` or `operator[]`) only opens slot 1, and erasing present
key 5 only closes slot 1. -/
theorem C10_witness :
    (insert natLt [((1 : Nat), (10 : Nat)), (5, 50)] (3, 33)).1
      = [(1, 10), (3, 33), (5, 50)] ∧
    (opBracket natLt [((1 : Nat), (10 : Nat)), (5, 50)] 3).1
      = [(1, 10), (3, 0), (5, 50)] ∧
    (erase natLt [((1 : Nat), (10 : Nat)), (5, 50)] 5).1 = [(1, 10)] := by
  have h := C10_frame natLt [((1 : Nat), (10 : Nat)), (5, 50)] 3 (by decide)
  have h5 := C10_frame natLt [((1 : Nat), (10 : Nat)), (5, 50)] 5 (by decide)
  refine ⟨?_, ?_, ?_⟩
  · exact ((h.1 33 (by decide)).1).trans (by decide)
  · exact ((h.1 33 (by decide)).2).trans (by decide)
  · exact ((h5.2 1 (by decide)).1).trans (by decide)

/-! ### C4: states reachable by insert / emplace / erase -/

/-- One mutating call of the claim: un-hinted `insert(value)`, `emplace`,
or `erase(key)`. -/
inductive Op (α β : Type) where
  | insert (x : α × β)
  | emplace (x : α × β)
  | erase (k : α)

/-- Apply one mutating call to the container state. -/
def applyOp (cmp : α → α → Bool) (l : List (α × β)) : Op α β → List (α × β)
  | Op.insert x => (insert cmp l x).1
  | Op.emplace x => (emplace cmp l x).1
  | Op.erase k => (erase cmp l k).1

/-- The state reached from the empty container by a sequence of calls. -/
def runOps (cmp : α → α → Bool) (ops : List (Op α β)) : List (α × β) :=
  ops.foldl (applyOp cmp) []

theorem applyOp_sorted {cmp : α → α → Bool}
    (htr : ∀ a b c : α, cmp a b = true → cmp b c = true → cmp a c = true)
    {l : List (α × β)} (hs : sortedInv cmp l) (op : Op α β) :
    sortedInv cmp (applyOp cmp l op) := by
  cases op with
  | insert x => exact insert_fst_sorted hs x
  | emplace x => exact emplace_fst_sorted hs x
  | erase k => exact erase_fst_sorted htr hs k

theorem count_le_one (cmp : α → α → Bool) (l : List (α × β)) (k : α) :
    count cmp l k ≤ 1 := by
  unfold count
  split
  · exact Nat.le_refl 1
  · exact Nat.zero_le 1

/-- **C4**: every state reachable from the empty container by a finite
sequence of `insert`, `emplace` and `erase` calls satisfies the sortedness
invariant, and consequently `count` is 0 or 1 for every key there. -/
theorem C4_reachable_sorted {cmp : α → α → Bool}
    (htr : ∀ a b c : α, cmp a b = true → cmp b c = true → cmp a c = true)
    (ops : List (Op α β)) :
    sortedInv cmp (runOps cmp ops) ∧
      ∀ k, count cmp (runOps cmp ops) k ≤ 1 := by
  refine ⟨?_, fun k => count_le_one cmp _ k⟩
  have main : ∀ (ops : List (Op α β)) (l : List (α × β)), sortedInv cmp l →
      sortedInv cmp (ops.foldl (applyOp cmp) l) := by
    intro ops
    induction ops with
    | nil => intro l hs; exact hs
    | cons op rest ih =>
      intro l hs
      exact ih _ (applyOp_sorted htr hs op)
  exact main ops [] (List.chain'_nil)

theorem natLt_trans : ∀ a b c : Nat,
    natLt a b = true → natLt b c = true → natLt a c = true := by
  intro a b c
  simp only [natLt, decide_eq_true_eq]
  omega

theorem natLt_irrefl : ∀ a : Nat, natLt a a = false := by
  intro a
  simp [natLt]

theorem natLt_neg_trans : ∀ a b c : Nat,
    natLt a b = false → natLt b c = false → natLt a c = false := by
  intro a b c
  simp only [natLt, decide_eq_false_iff_not]
  omega

/-- Witness for C4: the scenario of spec §8 — insert 'c', 'a', 'b' style
keys out of order, emplace a duplicate, erase one — lands in a sorted
state with unit counts. -/
theorem C4_witness :
    sortedInv natLt
      (runOps natLt
        [Op.insert ((3 : Nat), (30 : Nat)), Op.insert (1, 10), Op.emplace (2, 20),
          Op.emplace (1, 99), Op.erase 2]) ∧
    count natLt
      (runOps natLt
        [Op.insert ((3 : Nat), (30 : Nat)), Op.insert (1, 10), Op.emplace (2, 20),
          Op.emplace (1, 99), Op.erase 2]) 1 ≤ 1 := by
  have h := C4_reachable_sorted natLt_trans
    [Op.insert ((3 : Nat), (30 : Nat)), Op.insert (1, 10), Op.emplace (2, 20),
      Op.emplace (1, 99), Op.erase 2]
  exact ⟨h.1, h.2 1⟩

/-! ### C5: erase semantics -/

/-- **C5**: on a sorted map, `erase(k)` removes the single entry with a
comparator-equivalent key when one exists — shifting later entries down by
one slot, shrinking the size by exactly one, and making a subsequent
`find(k)` miss — and returns 1; when no such entry exists it returns 0 and
leaves the container untouched. -/
theorem C5_erase (cmp : α → α → Bool) (l : List (α × β)) (k : α)
    (htr : ∀ a b c : α, cmp a b = true → cmp b c = true → cmp a c = true)
    (hneg : ∀ a b c : α, cmp a b = false → cmp b c = false → cmp a c = false)
    (hs : sortedInv cmp l) :
    (∀ i, find cmp l k = some i →
      (erase cmp l k).1 = l.eraseIdx i ∧
      (erase cmp l k).2 = 1 ∧
      (erase cmp l k).1.length + 1 = l.length ∧
      (∃ e, l[i]? = some e ∧ eq_key cmp e.1 k = true) ∧
      find cmp (erase cmp l k).1 k = none) ∧
    (find cmp l k = none → erase cmp l k = (l, 0)) := by
  constructor
  · intro i hsome
    obtain ⟨hi, e, he, heq⟩ := find_some_elim hsome
    have herase : erase cmp l k = (l.eraseIdx i, 1) := by
      unfold erase
      rw [hsome]
    have hilen : i < l.length := (List.getElem?_eq_some.mp he).1
    refine ⟨by rw [herase], by rw [herase], ?_, ⟨e, he, heq⟩, ?_⟩
    · rw [herase]
      exact List.length_eraseIdx_add_one hilen
    · rw [herase]
      apply find_none_of_all_ne
      intro f hf
      obtain ⟨j, hj⟩ := List.mem_iff_getElem?.mp hf
      rw [List.getElem?_eraseIdx] at hj
      cases hne : ne_key cmp f.1 k
      · exfalso
        have hfe : eq_key cmp f.1 k = true := eq_key_of_ne_key_false hne
        split at hj
        · rename_i hji
          have := eq_key_unique htr hneg hs hj he hfe heq
          omega
        · rename_i hji
          have := eq_key_unique htr hneg hs hj he hfe heq
          omega
      · rfl
  · intro hnone
    unfold erase
    rw [hnone]

/-- Witness for C5: spec §8 concrete scenarios — erasing present key 3 from
`[(1,10),(3,30),(5,50)]` removes exactly that entry and returns 1; erasing
absent key 4 returns 0 and changes nothing. -/
theorem C5_witness :
    (erase natLt [((1 : Nat), (10 : Nat)), (3, 30), (5, 50)] 3).1
      = [(1, 10), (5, 50)] ∧
    (erase natLt [((1 : Nat), (10 : Nat)), (3, 30), (5, 50)] 3).2 = 1 ∧
    find natLt (erase natLt [((1 : Nat), (10 : Nat)), (3, 30), (5, 50)] 3).1 3
      = none ∧
    erase natLt [((1 : Nat), (10 : Nat)), (3, 30), (5, 50)] 4
      = ([(1, 10), (3, 30), (5, 50)], 0) := by
  have h := C5_erase natLt [((1 : Nat), (10 : Nat)), (3, 30), (5, 50)] 3
    natLt_trans natLt_neg_trans (by decide)
  have h4 := C5_erase natLt [((1 : Nat), (10 : Nat)), (3, 30), (5, 50)] 4
    natLt_trans natLt_neg_trans (by decide)
  obtain ⟨h1, _, _, _, h5⟩ := h.1 1 (by decide)
  exact ⟨h1.trans (by decide), (h.1 1 (by decide)).2.1, h5, h4.2 (by decide)⟩

/-! ### C6: operator[] -/

theorem setVal_nil (i : Nat) (v : β) : setVal ([] : List (α × β)) i v = [] := by
  unfold setVal
  simp

theorem setVal_cons_zero (a : α × β) (t : List (α × β)) (v : β) :
    setVal (a :: t) 0 v = (a.1, v) :: t := by
  unfold setVal
  simp [List.set]

theorem setVal_cons_succ (a : α × β) (t : List (α × β)) (i : Nat) (v : β) :
    setVal (a :: t) (i + 1) v = a :: setVal t i v := by
  unfold setVal
  rw [List.getElem?_cons_succ]
  cases h : t[i]? with
  | none => simp [h]
  | some e => simp [h, List.set]

theorem lower_bound_setVal {cmp : α → α → Bool} (l : List (α × β)) (i : Nat)
    (v : β) (k : α) :
    lower_bound cmp (setVal l i v) k = lower_bound cmp l k := by
  induction l generalizing i with
  | nil => rw [setVal_nil]
  | cons a t ih =>
    cases i with
    | zero =>
      rw [setVal_cons_zero]
      simp [lower_bound]
    | succ m =>
      rw [setVal_cons_succ]
      simp [lower_bound, ih]

theorem lower_bound_insertIdx_self {cmp : α → α → Bool} {l : List (α × β)}
    {k : α} (hirr : ∀ a : α, cmp a a = false) (v : β) :
    lower_bound cmp (l.insertIdx (lower_bound cmp l k) (k, v)) k
      = lower_bound cmp l k := by
  induction l with
  | nil => simp [lower_bound, List.insertIdx_zero, hirr]
  | cons a t ih =>
    by_cases h : cmp a.1 k = true
    · have hlb : lower_bound cmp (a :: t) k = lower_bound cmp t k + 1 := by
        simp [lower_bound, h]
      rw [hlb, List.insertIdx_succ_cons]
      simp [lower_bound, h, ih]
    · have hlb : lower_bound cmp (a :: t) k = 0 := by
        simp [lower_bound, h]
      rw [hlb, List.insertIdx_zero]
      simp [lower_bound, hirr k]

/-- The slot opened by `insertIdx` holds the new entry. -/
theorem getElem?_insertIdx_self {γ : Type} {l : List γ} {i : Nat}
    (h : i ≤ l.length) (x : γ) : (l.insertIdx i x)[i]? = some x := by
  rw [insertIdx_eq_take_cons_drop h]
  have hlt : (l.take i).length = i := by
    simp [List.length_take, Nat.min_eq_left h]
  rw [List.getElem?_append_right (by omega)]
  simp [hlt]

theorem find_setVal {cmp : α → α → Bool} {l : List (α × β)} {i : Nat}
    {e : α × β} {k : α} (v : β) (he : l[i]? = some e)
    (heq : eq_key cmp e.1 k = true) (hlb : lower_bound cmp l k = i) :
    find cmp (setVal l i v) k = some i ∧
      (setVal l i v)[i]? = some (e.1, v) := by
  have hset : setVal l i v = l.set i (e.1, v) := by
    unfold setVal
    rw [he]
  have hlen : i < l.length := (List.getElem?_eq_some.mp he).1
  have hgot : (setVal l i v)[i]? = some (e.1, v) := by
    rw [hset]
    exact List.getElem?_set_self hlen
  have hlb2 : lower_bound cmp (setVal l i v) k = i := by
    rw [lower_bound_setVal, hlb]
  refine ⟨?_, hgot⟩
  have := find_some_intro (l := setVal l i v) (k := k) (e := (e.1, v))
    (by rw [hlb2]; exact hgot) heq
  rw [hlb2] at this
  exact this

/-- **C6**: on a sorted map, `operator[](k)` returns the slot of the entry
for `k` — the existing one (with its stored value and with the container
untouched) when `k` is present, otherwise the freshly inserted
`(k, default)` at the correct sorted position — it preserves the
invariant, it never fails, and a mutation through the returned slot is
visible via a subsequent `find(k)`. -/
theorem C6_opBracket {cmp : α → α → Bool} [Inhabited β] (l : List (α × β))
    (k : α) (hirr : ∀ a : α, cmp a a = false) (hs : sortedInv cmp l) :
    ∀ m j, opBracket cmp l k = (m, j) →
      sortedInv cmp m ∧
      (∃ e, m[j]? = some e ∧ eq_key cmp e.1 k = true) ∧
      (∀ i, find cmp l k = some i → m = l ∧ j = i) ∧
      (find cmp l k = none →
        m[j]? = some (k, default) ∧ m.length = l.length + 1) ∧
      (∀ v : β, find cmp (setVal m j v) k = some j ∧
        ∃ e, (setVal m j v)[j]? = some e ∧ e.2 = v) := by
  intro m j hmj
  have heqkk : eq_key cmp k k = true := eq_key_iff.mpr ⟨hirr k, hirr k⟩
  have hle := lower_bound_le_length cmp l k
  cases hfind : find cmp l k with
  | some i =>
    obtain ⟨hi, e, he, heq⟩ := find_some_elim hfind
    subst hi
    have hop : opBracket cmp l k = (l, lower_bound cmp l k) :=
      opBracket_found he (ne_key_false_of_eq_key heq)
    rw [hop] at hmj
    injection hmj with hm hj
    subst hm
    subst hj
    refine ⟨hs, ⟨e, he, heq⟩, ?_, ?_, ?_⟩
    · intro i hi
      injection hi with hi
      exact ⟨rfl, hi⟩
    · intro h
      cases h
    · intro v
      obtain ⟨h1, h2⟩ := find_setVal v he heq rfl
      exact ⟨h1, ⟨(e.1, v), h2, rfl⟩⟩
  | none =>
    have hcond := find_none_elim hfind
    have hop := opBracket_notfound (β := β) hcond
    rw [hop] at hmj
    injection hmj with hm hj
    subst hm
    subst hj
    have hgot := getElem?_insertIdx_self (l := l) hle
      ((k, default) : α × β)
    refine ⟨?_, ⟨(k, default), hgot, heqkk⟩, ?_, ?_, ?_⟩
    · have := opBracket_fst_sorted hs k
      rw [hop] at this
      exact this
    · intro i hi
      cases hi
    · intro _
      exact ⟨hgot, List.length_insertIdx _ _ hle⟩
    · intro v
      have hlb2 := lower_bound_insertIdx_self (l := l) (k := k) hirr
        (default : β)
      obtain ⟨h1, h2⟩ := find_setVal v hgot heqkk hlb2
      exact ⟨h1, ⟨(k, v), h2, rfl⟩⟩

/-- Witness for C6: `operator[]` on absent key 2 of `[(1,10),(3,30)]`
inserts `(2,0)` at slot 1, keeping the map sorted; storing 77 through the
returned slot is then visible via `find`. -/
theorem C6_witness :
    sortedInv natLt [((1 : Nat), (10 : Nat)), (2, 0), (3, 30)] ∧
    find natLt (setVal [((1 : Nat), (10 : Nat)), (2, 0), (3, 30)] 1 77) 2
      = some 1 := by
  have h := C6_opBracket [((1 : Nat), (10 : Nat)), (3, 30)] 2 natLt_irrefl
    (by decide) [((1 : Nat), (10 : Nat)), (2, 0), (3, 30)] 1 (by decide)
  exact ⟨h.1, (h.2.2.2.2 77).1⟩

/-! ### C7: at -/

/-- **C7**: on a sorted map, `at(k)` returns the value stored under the
comparator-equivalent key when one exists, and fails — `std::out_of_range`
with exception support, `abort()` without, modelled as `none` — exactly
when no such entry exists.  `at_impl` only reads the container (it is a
pure lookup in this embedding), so the container is left unchanged. -/
theorem C7_at (cmp : α → α → Bool) (l : List (α × β)) (k : α)
    (htr : ∀ a b c : α, cmp a b = true → cmp b c = true → cmp a c = true)
    (hneg : ∀ a b c : α, cmp a b = false → cmp b c = false → cmp a c = false)
    (hs : sortedInv cmp l) :
    (∀ (j : Nat) (e : α × β), l[j]? = some e → eq_key cmp e.1 k = true →
      at_impl cmp l k = some e.2) ∧
    ((∀ e ∈ l, eq_key cmp e.1 k = false) → at_impl cmp l k = none) := by
  constructor
  · intro j e hj heq
    obtain ⟨hfind, hle⟩ := find_some_of_mem htr hs hj heq
    obtain ⟨_, f, hf, hfeq⟩ := find_some_elim hfind
    have hij : lower_bound cmp l k = j :=
      eq_key_unique htr hneg hs hf hj hfeq heq
    unfold at_impl
    rw [hfind, hij]
    simp [hj]
  · intro hall
    have hfind : find cmp l k = none :=
      find_none_of_all_ne fun e he => ne_key_true_of_eq_key_false (hall e he)
    unfold at_impl
    rw [hfind]

/-- Witness for C7: spec §8 scenario 2 — `at` on present key 3 yields its
value, `at` on absent key 4 fails. -/
theorem C7_witness :
    at_impl natLt [((1 : Nat), (10 : Nat)), (3, 30)] 3 = some 30 ∧
    at_impl natLt [((1 : Nat), (10 : Nat)), (3, 30)] 4 = none := by
  have h := C7_at natLt [((1 : Nat), (10 : Nat)), (3, 30)] 3
    natLt_trans natLt_neg_trans (by decide)
  have h4 := C7_at natLt [((1 : Nat), (10 : Nat)), (3, 30)] 4
    natLt_trans natLt_neg_trans (by decide)
  exact ⟨h.1 1 (3, 30) (by decide) (by decide), h4.2 (by decide)⟩

/-! ### C8: lower_bound / upper_bound / equal_range / find consistency -/

/-- **C8**: on a sorted map, `lower_bound` is the first position whose key
is not less than `k`, `upper_bound` the first whose key is strictly
greater, `equal_range` is exactly their pair, the range they delimit spans
0 or 1 entries, and it spans exactly one entry iff `find` hits
(equivalently iff `count` is 1: `count` equals the span). -/
theorem C8_bounds (cmp : α → α → Bool) (l : List (α × β)) (k : α)
    (hirr : ∀ a : α, cmp a a = false)
    (htr : ∀ a b c : α, cmp a b = true → cmp b c = true → cmp a c = true)
    (hneg : ∀ a b c : α, cmp a b = false → cmp b c = false → cmp a c = false)
    (hs : sortedInv cmp l) :
    equal_range cmp l k = (lower_bound cmp l k, upper_bound cmp l k) ∧
    (∀ (j : Nat) (e : α × β), l[j]? = some e →
      (lower_bound cmp l k ≤ j ↔ cmp e.1 k = false)) ∧
    (∀ (j : Nat) (e : α × β), l[j]? = some e →
      (upper_bound cmp l k ≤ j ↔ cmp k e.1 = true)) ∧
    lower_bound cmp l k ≤ upper_bound cmp l k ∧
    upper_bound cmp l k ≤ lower_bound cmp l k + 1 ∧
    (upper_bound cmp l k = lower_bound cmp l k + 1 ↔
      (find cmp l k).isSome = true) ∧
    count cmp l k = upper_bound cmp l k - lower_bound cmp l k := by
  have hlbc : ∀ (j : Nat) (e : α × β), l[j]? = some e →
      (lower_bound cmp l k ≤ j ↔ cmp e.1 k = false) := by
    intro j e hj
    constructor
    · intro hle
      rcases Nat.eq_or_lt_of_le hle with heq | hlt
      · rw [← heq] at hj
        exact lower_bound_get_false hj
      · have hlen : lower_bound cmp l k < l.length :=
          Nat.lt_of_lt_of_le hlt (Nat.le_of_lt_succ
            (Nat.lt_succ_of_lt (List.getElem?_eq_some.mp hj).1))
        obtain ⟨g, hg⟩ : ∃ g, l[lower_bound cmp l k]? = some g :=
          ⟨_, List.getElem?_eq_getElem hlen⟩
        have hgk : cmp g.1 k = false := lower_bound_get_false hg
        have hrel : cmp g.1 e.1 = true := sorted_rel htr hs hlt hg hj
        cases hek : cmp e.1 k
        · rfl
        · exfalso
          have : cmp g.1 k = true := htr g.1 e.1 k hrel hek
          rw [this] at hgk
          cases hgk
    · intro hek
      by_contra hlt
      have := lower_bound_lt_true (Nat.lt_of_not_le hlt) hj
      rw [this] at hek
      cases hek
  have hubc : ∀ (j : Nat) (e : α × β), l[j]? = some e →
      (upper_bound cmp l k ≤ j ↔ cmp k e.1 = true) := by
    intro j e hj
    constructor
    · intro hle
      rcases Nat.eq_or_lt_of_le hle with heq | hlt
      · rw [← heq] at hj
        exact upper_bound_get_true hj
      · have hlen : upper_bound cmp l k < l.length :=
          Nat.lt_trans hlt (List.getElem?_eq_some.mp hj).1
        obtain ⟨g, hg⟩ : ∃ g, l[upper_bound cmp l k]? = some g :=
          ⟨_, List.getElem?_eq_getElem hlen⟩
        have hkg : cmp k g.1 = true := upper_bound_get_true hg
        have hrel : cmp g.1 e.1 = true := sorted_rel htr hs hlt hg hj
        exact htr k g.1 e.1 hkg hrel
    · intro hke
      by_contra hlt
      have := upper_bound_lt_false (Nat.lt_of_not_le hlt) hj
      rw [this] at hke
      cases hke
  have hlbub : lower_bound cmp l k ≤ upper_bound cmp l k := by
    by_contra hlt
    have hlt := Nat.lt_of_not_le hlt
    have hlen : upper_bound cmp l k < l.length :=
      Nat.lt_of_lt_of_le hlt (lower_bound_le_length cmp l k)
    obtain ⟨f, hf⟩ : ∃ f, l[upper_bound cmp l k]? = some f :=
      ⟨_, List.getElem?_eq_getElem hlen⟩
    have h1 : cmp k f.1 = true := upper_bound_get_true hf
    have h2 : cmp f.1 k = true := lower_bound_lt_true hlt hf
    have : cmp k k = true := htr k f.1 k h1 h2
    rw [hirr k] at this
    cases this
  have hspan : upper_bound cmp l k ≤ lower_bound cmp l k + 1 := by
    by_contra hgt
    have hgt := Nat.lt_of_not_le hgt
    have hlen1 : lower_bound cmp l k + 1 < l.length :=
      Nat.lt_of_lt_of_le hgt (upper_bound_le_length cmp l k)
    have hlen0 : lower_bound cmp l k < l.length := Nat.lt_of_succ_lt hlen1
    obtain ⟨g, hg⟩ : ∃ g, l[lower_bound cmp l k]? = some g :=
      ⟨_, List.getElem?_eq_getElem hlen0⟩
    obtain ⟨f, hf⟩ : ∃ f, l[lower_bound cmp l k + 1]? = some f :=
      ⟨_, List.getElem?_eq_getElem hlen1⟩
    have h1 : cmp g.1 k = false := lower_bound_get_false hg
    have h2 : cmp k f.1 = false := upper_bound_lt_false hgt hf
    have h3 : cmp g.1 f.1 = true :=
      sorted_rel htr hs (Nat.lt_succ_self _) hg hf
    have : cmp g.1 f.1 = false := hneg g.1 k f.1 h1 h2
    rw [h3] at this
    cases this
  have hiff : upper_bound cmp l k = lower_bound cmp l k + 1 ↔
      (find cmp l k).isSome = true := by
    constructor
    · intro hub
      have hlen : lower_bound cmp l k < l.length := by
        have := upper_bound_le_length cmp l k
        omega
      obtain ⟨g, hg⟩ : ∃ g, l[lower_bound cmp l k]? = some g :=
        ⟨_, List.getElem?_eq_getElem hlen⟩
      have h1 : cmp g.1 k = false := lower_bound_get_false hg
      have h2 : cmp k g.1 = false := by
        cases hkg : cmp k g.1
        · rfl
        · exfalso
          have := (hubc _ g hg).mpr hkg
          omega
      have := find_some_intro hg (eq_key_iff.mpr ⟨h1, h2⟩)
      rw [this]
      rfl
    · intro hsome
      obtain ⟨i, hfind⟩ := Option.isSome_iff_exists.mp hsome
      obtain ⟨hi, e, he, heq⟩ := find_some_elim hfind
      subst hi
      obtain ⟨_, h2⟩ := eq_key_iff.mp heq
      have hnle : ¬ upper_bound cmp l k ≤ lower_bound cmp l k := by
        intro hle
        have := (hubc _ e he).mp hle
        rw [this] at h2
        cases h2
      omega
  refine ⟨rfl, hlbc, hubc, hlbub, hspan, hiff, ?_⟩
  unfold count
  cases hsome : (find cmp l k).isSome
  · have hne : ¬ upper_bound cmp l k = lower_bound cmp l k + 1 := by
      intro h
      rw [hiff.mp h] at hsome
      cases hsome
    simp only [Bool.false_eq_true, if_false]
    omega
  · have := hiff.mpr hsome
    simp only [if_true]
    omega

/-- Witness for C8: on `[(1,10),(3,30),(5,50)]` with key 3, the bounds are
(1,2): a one-entry span matching `find` and `count`. -/
theorem C8_witness :
    equal_range natLt [((1 : Nat), (10 : Nat)), (3, 30), (5, 50)] 3 = (1, 2) ∧
    count natLt [((1 : Nat), (10 : Nat)), (3, 30), (5, 50)] 3
      = upper_bound natLt [((1 : Nat), (10 : Nat)), (3, 30), (5, 50)] 3
        - lower_bound natLt [((1 : Nat), (10 : Nat)), (3, 30), (5, 50)] 3 := by
  have h := C8_bounds natLt [((1 : Nat), (10 : Nat)), (3, 30), (5, 50)] 3
    natLt_irrefl natLt_trans natLt_neg_trans (by decide)
  exact ⟨h.1.trans (by decide), h.2.2.2.2.2.2⟩

end GobStdmap
